import Mathlib

/-
Verification of the essusic playback orchestration and crossfade mixing
engine.  The definitions below are a shallow embedding of the Python
sources:

  * `TrackInfo`, `CrossfadeSource`          — src/music/audio_source.py
  * `GuildQueue`, `QueueManager` fragments  — src/music/queue_manager.py
  * `MusicCog._after_play`, crossfade-timer
    scheduling in `MusicCog._play_next`     — src/cogs/music_cog.py

Python `deque`s are modelled as `List` (append at the tail, pop at the
head), Python `set`s of vote ids as `List Nat`, floats as `ℚ`, byte-string
PCM frames as `List Int` of signed 16-bit samples (2 bytes per sample;
the empty frame `[]` plays the role of the empty byte string `b""` that
signals an exhausted producer).
-/

namespace Essusic

/-- Embeds `TrackInfo` (src/music/audio_source.py): lightweight metadata
stored in the queue. -/
structure TrackInfo where
  title : String := ""
  url : String := ""
  duration : Nat := 0
  thumbnail : String := ""
  requester : String := ""
  is_live : Bool := false
  artist : String := ""
  requester_id : Nat := 0
deriving DecidableEq, Repr

/-- Embeds `LoopMode` (src/music/queue_manager.py). -/
inductive LoopMode where
  | OFF
  | SINGLE
  | QUEUE
deriving DecidableEq, Repr

/-- Embeds the fields of `GuildQueue.__init__` that the playback claims
touch (src/music/queue_manager.py).  `restarting` models `_restarting`,
`undo_stack` models `_undo_stack` (Python list, push/pop at the tail). -/
structure GuildQueue where
  queue : List TrackInfo := []
  current : Option TrackInfo := none
  loop_mode : LoopMode := LoopMode.OFF
  previous : Option TrackInfo := none
  skip_votes : List Nat := []
  max_queue : Nat := 50
  restarting : Bool := false
  undo_stack : List (List TrackInfo × String) := []
  crossfade_seconds : Nat := 0
  speed : ℚ := 1
deriving DecidableEq, Repr

/-- The freshly constructed `GuildQueue()` of `GuildQueue.__init__`. -/
def initGuildQueue : GuildQueue := {}

/-- Embeds `GuildQueue.add` (src/music/queue_manager.py lines 105-110):
reject with `None` when `len(queue) >= max_queue`, else append and return
the 1-indexed position.  Returns the result together with the new state. -/
def GuildQueue.add (gq : GuildQueue) (track : TrackInfo) : Option Nat × GuildQueue :=
  if gq.max_queue ≤ gq.queue.length then
    (none, gq)
  else
    let q := gq.queue ++ [track]
    (some q.length, { gq with queue := q })

/-- A whole sequence of `add` calls, keeping only the state. -/
def GuildQueue.addSeq (gq : GuildQueue) (tracks : List TrackInfo) : GuildQueue :=
  tracks.foldl (fun g t => (g.add t).2) gq

/-- Embeds `GuildQueue.next_track` (src/music/queue_manager.py lines
112-128).  Note that the source clears `skip_votes` unconditionally on
entry, before the SINGLE-loop early return. -/
def GuildQueue.nextTrack (gq : GuildQueue) : Option TrackInfo × GuildQueue :=
  let g0 := { gq with skip_votes := [] }
  match g0.loop_mode, g0.current with
  | LoopMode.SINGLE, some c => (some c, g0)
  | _, _ =>
    let g1 := { g0 with previous := g0.current }
    let g2 :=
      match g1.loop_mode, g1.current with
      | LoopMode.QUEUE, some c => { g1 with queue := g1.queue ++ [c] }
      | _, _ => g1
    match g2.queue with
    | [] => (none, { g2 with current := none })
    | t :: rest => (some t, { g2 with current := some t, queue := rest })

/-- Iterates `next_track` `n` times, collecting the returned tracks. -/
def GuildQueue.nextTrackIter : Nat → GuildQueue → List (Option TrackInfo) × GuildQueue
  | 0, g => ([], g)
  | n + 1, g =>
    let r := g.nextTrack
    let rs := GuildQueue.nextTrackIter n r.2
    (r.1 :: rs.1, rs.2)

/-- Embeds `GuildQueue.snapshot` (src/music/queue_manager.py lines
226-230): push `(copy of queue, description)`, evicting the oldest entry
(`pop(0)`) when more than 10 entries are held. -/
def GuildQueue.snapshot (gq : GuildQueue) (description : String) : GuildQueue :=
  let st := gq.undo_stack ++ [(gq.queue, description)]
  { gq with undo_stack := if 10 < st.length then st.drop 1 else st }

/-- Embeds `GuildQueue.undo` (src/music/queue_manager.py lines 232-238):
pop the newest snapshot (`list.pop()` pops the tail) and restore the
queue from it; `None` on an empty stack. -/
def GuildQueue.undo (gq : GuildQueue) : Option String × GuildQueue :=
  match gq.undo_stack.getLast? with
  | none => (none, gq)
  | some (items, description) =>
      (some description,
       { gq with undo_stack := gq.undo_stack.dropLast, queue := items })

/-- Python `int()` applied to a real number: truncation toward zero.
The source mixes with binary floats; the rational model is exact at the
sample values and gains the claims evaluate. -/
def pyInt (q : ℚ) : Int :=
  if q < 0 then -((-q).floor) else q.floor

/-- One PCM frame: a list of signed 16-bit samples.  The empty list
models the empty byte string an exhausted producer returns. -/
abbrev Frame := List Int

/-- Embeds the state of `CrossfadeSource` (src/music/audio_source.py
lines 228-248); the two producers are modelled as the lists of frames
their successive `read()` calls return. -/
structure CrossfadeSource where
  outgoing : List Frame
  incoming : List Frame
  total_frames : Nat
  frame_count : Nat
  finished : Bool
deriving DecidableEq, Repr

/-- Embeds `CrossfadeSource.__init__`: `total_frames = crossfade_seconds * 50`. -/
def CrossfadeSource.init (outgoing incoming : List Frame)
    (crossfade_seconds : Nat) : CrossfadeSource :=
  { outgoing := outgoing, incoming := incoming,
    total_frames := crossfade_seconds * 50, frame_count := 0, finished := false }

/-- A producer `read()`: pop the head frame, or the empty frame when
exhausted. -/
def popFrame : List Frame → Frame × List Frame
  | [] => ([], [])
  | f :: fs => (f, fs)

/-- One mixed sample: `val = int(o*out_gain + i*in_gain)` clamped to
`[-32768, 32767]` (src/music/audio_source.py lines 286-289). -/
def mixSample (outGain inGain : ℚ) (o i : Int) : Int :=
  max (-32768) (min 32767 (pyInt ((o : ℚ) * outGain + (i : ℚ) * inGain)))

/-- Pad a frame with zero samples up to `n` samples
(`data.ljust(max_len, b"\x00")` at the byte level). -/
def padFrame (n : Nat) (f : Frame) : Frame :=
  f ++ List.replicate (n - f.length) 0

/-- The frame the mixing branch emits at frame count `fc` with window
`n`: both inputs padded to equal length, then mixed sample-wise with
`out_gain = 1 - progress` and `in_gain = progress`. -/
def mixFrame (n fc : Nat) (outd ind : Frame) : Frame :=
  List.zipWith
    (mixSample (1 - min ((fc : ℚ) / ((max n 1 : Nat) : ℚ)) 1)
      (min ((fc : ℚ) / ((max n 1 : Nat) : ℚ)) 1))
    (padFrame (max outd.length ind.length) outd)
    (padFrame (max outd.length ind.length) ind)

/-- Embeds `CrossfadeSource.read` (src/music/audio_source.py lines
250-291), returning the produced frame and the successor state. -/
def CrossfadeSource.read (s : CrossfadeSource) : Frame × CrossfadeSource :=
  if s.finished then
    let p := popFrame s.incoming
    (p.1, { s with incoming := p.2 })
  else
    let po := popFrame s.outgoing
    let pi := popFrame s.incoming
    let s1 : CrossfadeSource := { s with outgoing := po.2, incoming := pi.2 }
    if po.1 = [] ∧ pi.1 = [] then ([], s1)
    else if po.1 = [] then (pi.1, { s1 with finished := true })
    else if pi.1 = [] then ([], { s1 with finished := true })
    else
      let fc := s1.frame_count + 1
      let s2 : CrossfadeSource := { s1 with frame_count := fc }
      let progress : ℚ := min ((fc : ℚ) / ((max s2.total_frames 1 : Nat) : ℚ)) 1
      if 1 ≤ progress then (pi.1, { s2 with finished := true })
      else (mixFrame s2.total_frames fc po.1 pi.1, s2)

/-- Iterates `read()` `n` times, collecting the emitted frames. -/
def readN : Nat → CrossfadeSource → List Frame × CrossfadeSource
  | 0, s => ([], s)
  | n + 1, s => ((s.read).1 :: (readN n (s.read).2).1, (readN n (s.read).2).2)

/-- The observable effects of `MusicCog._after_play` (src/cogs/music_cog.py
lines 934-940): it logs the error when one is present, then returns
without scheduling `_play_next` when the session's `_restarting` flag is
set, and schedules `_play_next` otherwise. -/
structure AfterPlayEffect where
  loggedError : Bool
  playNextInvoked : Bool
deriving DecidableEq, Repr

/-- Embeds `MusicCog._after_play` as a pure effect record over the
session state and the delivered error. -/
def afterPlay (gq : GuildQueue) (error : Option String) : AfterPlayEffect :=
  { loggedError := error.isSome,
    playNextInvoked := !gq.restarting }

/-- The per-room crossfade timer table `MusicCog._crossfade_timers`,
modelled as an association list from room id to the scheduled delay in
seconds. -/
abbrev TimerTable := List (Nat × ℚ)

/-- Pending delay for a room, if any. -/
def lookupTimer (timers : TimerTable) (gid : Nat) : Option ℚ :=
  (timers.find? (fun p => p.1 == gid)).map Prod.snd

/-- Embeds `MusicCog._cancel_crossfade_timer` (src/cogs/music_cog.py
lines 1154-1157): pop and cancel the room's pending handle. -/
def cancelCrossfadeTimer (timers : TimerTable) (gid : Nat) : TimerTable :=
  timers.filter (fun p => p.1 != gid)

/-- The delay the source schedules:
`max(0, track.duration / gq.speed - gq.crossfade_seconds)`
(src/cogs/music_cog.py line 1060). -/
def crossfadeDelay (crossfade_seconds duration : Nat) (speed : ℚ) : ℚ :=
  max 0 ((duration : ℚ) / speed - (crossfade_seconds : ℚ))

/-- Embeds the crossfade-scheduling tail of `MusicCog._play_next`
(src/cogs/music_cog.py lines 1053-1065): first cancel any pending timer
for the room, then, exactly when `crossfade_seconds > 0`, the track has
`duration > 0`, is not live, and the queue is non-empty, store a new
timer with delay `crossfadeDelay`. -/
def playNextScheduleTimer (timers : TimerTable) (gid : Nat)
    (crossfade_seconds duration : Nat) (is_live : Bool) (queue : List TrackInfo)
    (speed : ℚ) : TimerTable :=
  let t := cancelCrossfadeTimer timers gid
  if 0 < crossfade_seconds ∧ 0 < duration ∧ is_live = false ∧ queue ≠ [] then
    (gid, crossfadeDelay crossfade_seconds duration speed) :: t
  else t

/-- Models `max(candidates, key=len)` over an association list of groups:
Python's `max` keeps the first maximal element in iteration order. -/
def argmaxFirst {α : Type} : List (String × List α) → Option (String × List α)
  | [] => none
  | x :: xs =>
    some (xs.foldl (fun best y => if best.2.length < y.2.length then y else best) x)

/-- Models `remaining[best_key].popleft()` followed by
`if not remaining[best_key]: del remaining[best_key]`, on the ordered
association list that models the insertion-ordered dict. -/
def popGroup {α : Type} : List (String × List α) → String → List (String × List α)
  | [], _ => []
  | p :: rest, k =>
    if p.1 = k then
      (if p.2.tail.isEmpty then rest else (p.1, p.2.tail) :: rest)
    else p :: popGroup rest k

/-- One iteration of the `smart_shuffle` interleave loop (src/music/
queue_manager.py lines 184-200): filter candidate groups differing from
the last-placed key, fall back to all non-empty groups when none exist,
pick the first largest candidate, pop its head track. -/
def pickStep {α : Type} (rem : List (String × List α)) (last : String) :
    Option ((String × α) × List (String × List α)) :=
  match argmaxFirst
      (if (rem.filter (fun p => p.1 != last && !p.2.isEmpty)).isEmpty then
        rem.filter (fun p => !p.2.isEmpty)
      else rem.filter (fun p => p.1 != last && !p.2.isEmpty)) with
  | none => none
  | some b =>
    match b.2 with
    | [] => none
    | t :: _ => some ((b.1, t), popGroup rem b.1)

/-- The full interleave loop of `smart_shuffle`, producing the reordered
queue tagged with the group key each track was drawn from.  The source's
`while remaining:` loop terminates because each pick removes one track;
`fuel` bounds the iteration count (any `fuel ≥` total track count yields
the loop's full output). -/
def interleaveAux {α : Type} : Nat → List (String × List α) → String → List (String × α)
  | 0, _, _ => []
  | fuel + 1, rem, last =>
    match pickStep rem last with
    | none => []
    | some ((k, t), rem') => (k, t) :: interleaveAux fuel rem' k

/-- A saved track dict as written by `QueueManager.save_queue_state`
(`_track_dict`) and read back by `_restore_queue_state`. -/
structure SavedTrack where
  title : String := ""
  url : String := ""
  duration : Nat := 0
  thumbnail : String := ""
  requester : String := ""
deriving DecidableEq, Repr

/-- The per-room entry of `/data/queue_state.json`. -/
structure SavedState where
  current : Option SavedTrack := none
  queue : List SavedTrack := []
  loop_mode : Option String := none
deriving DecidableEq, Repr

/-- The `TrackInfo` built in `_restore_queue_state`: only the five
persisted fields, the rest left at their dataclass defaults. -/
def trackFromSaved (d : SavedTrack) : TrackInfo :=
  { title := d.title, url := d.url, duration := d.duration,
    thumbnail := d.thumbnail, requester := d.requester }

/-- The `LoopMode[name]` lookup; `None` models the `KeyError` branch. -/
def parseLoopMode : String → Option LoopMode
  | "OFF" => some LoopMode.OFF
  | "SINGLE" => some LoopMode.SINGLE
  | "QUEUE" => some LoopMode.QUEUE
  | _ => none

/-- Embeds `QueueManager._restore_queue_state` (src/music/queue_manager.py
lines 333-353), as invoked by `QueueManager.get` on a freshly created
`GuildQueue`: push the saved current track to the front of the queue
(`appendleft`), append the saved queue after it, restore the loop mode
when the saved name parses.  It is a pure data update: it never touches
`current` and never starts playback. -/
def restoreQueueState (saved : Option SavedState) (gq : GuildQueue) : GuildQueue :=
  match saved with
  | none => gq
  | some s =>
    let g1 :=
      match s.current with
      | some d => { gq with queue := trackFromSaved d :: gq.queue }
      | none => gq
    let g2 := { g1 with queue := g1.queue ++ s.queue.map trackFromSaved }
    match s.loop_mode with
    | some name =>
      match parseLoopMode name with
      | some m => { g2 with loop_mode := m }
      | none => g2
    | none => g2

/- ────────────────────────── helper lemmas ────────────────────────── -/

theorem add_snd_max_queue (g : GuildQueue) (t : TrackInfo) :
    ((g.add t).2).max_queue = g.max_queue := by
  unfold GuildQueue.add
  split <;> rfl

theorem add_snd_len_le (g : GuildQueue) (t : TrackInfo)
    (h : g.queue.length ≤ g.max_queue) :
    ((g.add t).2).queue.length ≤ g.max_queue := by
  unfold GuildQueue.add
  by_cases hc : g.max_queue ≤ g.queue.length
  · simpa [hc] using h
  · simp only [hc, if_false]
    simp only [List.length_append, List.length_cons, List.length_nil]
    omega

theorem addSeq_invariant (ts : List TrackInfo) :
    ∀ g : GuildQueue, g.queue.length ≤ g.max_queue →
      ((g.addSeq ts).queue.length ≤ (g.addSeq ts).max_queue ∧
       (g.addSeq ts).max_queue = g.max_queue) := by
  induction ts with
  | nil => intro g h; exact ⟨h, rfl⟩
  | cons t ts ih =>
    intro g h
    have hstep : g.addSeq (t :: ts) = ((g.add t).2).addSeq ts := rfl
    have hlen : ((g.add t).2).queue.length ≤ ((g.add t).2).max_queue := by
      rw [add_snd_max_queue]; exact add_snd_len_le g t h
    rcases ih ((g.add t).2) hlen with ⟨h1, h2⟩
    exact ⟨by rw [hstep]; exact h1, by rw [hstep, h2, add_snd_max_queue]⟩

/- ────────────────────────── claim theorems ───────────────────────── -/

/-- C1: if the playback-finished callback `_after_play` runs while the
room's `restarting` flag is true, it does not invoke `_play_next` (no
double-advance); at most the error, if present, is logged.  Holds for
every session state and every delivered error. -/
theorem afterPlay_restarting_no_advance (gq : GuildQueue) (error : Option String)
    (h : gq.restarting = true) :
    (afterPlay gq error).playNextInvoked = false ∧
    (afterPlay gq error).loggedError = error.isSome := by
  simp [afterPlay, h]

/-- Witness for C1 at a concrete restarting state and error. -/
theorem afterPlay_restarting_no_advance_witness :
    ({ initGuildQueue with restarting := true } : GuildQueue).restarting = true ∧
    ((afterPlay { initGuildQueue with restarting := true } (some "err")).playNextInvoked = false ∧
     (afterPlay { initGuildQueue with restarting := true } (some "err")).loggedError =
       (some "err").isSome) :=
  ⟨rfl, afterPlay_restarting_no_advance { initGuildQueue with restarting := true }
    (some "err") rfl⟩

/-- C3: `add` rejects (returns `None`) when the queue already holds
`max_queue` tracks, leaving the state unchanged (the source rejects at
`>=`, which on states satisfying the `len(queue) <= max_queue` invariant
is the same test); otherwise it appends the track and returns its
1-based position; every successful `add` leaves `len(queue) <=
max_queue`, and the bound is preserved by every sequence of `add`
calls. -/
theorem add_capacity (gq : GuildQueue) (t : TrackInfo) :
    (gq.max_queue ≤ gq.queue.length → gq.add t = (none, gq)) ∧
    (gq.queue.length ≠ gq.max_queue → gq.queue.length ≤ gq.max_queue →
      gq.add t = (some (gq.queue.length + 1), { gq with queue := gq.queue ++ [t] })) ∧
    (∀ (pos : Nat) (gq' : GuildQueue), gq.add t = (some pos, gq') →
      pos = gq.queue.length + 1 ∧ gq'.queue = gq.queue ++ [t] ∧
      gq'.queue.length ≤ gq.max_queue) ∧
    (∀ ts : List TrackInfo, gq.queue.length ≤ gq.max_queue →
      (gq.addSeq ts).queue.length ≤ gq.max_queue) := by
  refine ⟨?_, ?_, ?_, ?_⟩
  · intro h; unfold GuildQueue.add; simp [h]
  · intro hne hle
    have hlt : gq.queue.length < gq.max_queue := lt_of_le_of_ne hle hne
    unfold GuildQueue.add
    simp [Nat.not_le.mpr hlt]
  · intro pos gq' h
    unfold GuildQueue.add at h
    by_cases hc : gq.max_queue ≤ gq.queue.length
    · simp [hc] at h
    · simp only [hc, if_false] at h
      obtain ⟨h1, h2⟩ := Prod.mk.injEq .. ▸ h
      refine ⟨by simpa using h1.symm, by rw [← h2], ?_⟩
      rw [← h2]
      simp only [List.length_append, List.length_cons, List.length_nil]
      omega
  · intro ts h
    rcases addSeq_invariant ts gq h with ⟨h1, h2⟩
    omega

/-- Witness for C3: a queue of length 1 with capacity 2 accepts a track
at position 2. -/
theorem add_capacity_witness :
    ({ initGuildQueue with queue := [{}], max_queue := 2 } : GuildQueue).queue.length ≠
      ({ initGuildQueue with queue := [{}], max_queue := 2 } : GuildQueue).max_queue ∧
    ({ initGuildQueue with queue := [{}], max_queue := 2 } : GuildQueue).add {} =
      (some 2, { initGuildQueue with queue := [{}, {}], max_queue := 2 }) :=
  ⟨by decide,
   (add_capacity { initGuildQueue with queue := [{}], max_queue := 2 } {}).2.1
     (by decide) (by decide)⟩

theorem snapshot_getLast (g : GuildQueue) (d : String) :
    (g.snapshot d).undo_stack.getLast? = some (g.queue, d) := by
  unfold GuildQueue.snapshot
  by_cases h : 10 < (g.undo_stack ++ [(g.queue, d)]).length
  · have hlen : 1 ≤ g.undo_stack.length := by
      simp only [List.length_append, List.length_cons, List.length_nil] at h
      omega
    simp only [h, if_true]
    rw [List.drop_append_of_le_length hlen, List.getLast?_concat]
  · simp only [h, if_false]
    exact List.getLast?_concat _

/-- C6: `snapshot(d)` followed by an arbitrary mutation of the queue
followed by `undo()` restores the exact pre-mutation queue and returns
`d` (the eviction of the oldest entry at capacity never evicts the entry
just pushed); `undo` never modifies `current`; `undo` on an empty undo
stack returns `None` and leaves the whole state unchanged. -/
theorem snapshot_mutate_undo (gq : GuildQueue) (d : String) (q' : List TrackInfo) :
    (({ gq.snapshot d with queue := q' } : GuildQueue).undo.1 = some d ∧
     ({ gq.snapshot d with queue := q' } : GuildQueue).undo.2.queue = gq.queue) ∧
    (∀ g : GuildQueue, g.undo.2.current = g.current) ∧
    (∀ g : GuildQueue,
      ({ g with undo_stack := [] } : GuildQueue).undo =
        (none, { g with undo_stack := [] })) := by
  have hstack : ({ gq.snapshot d with queue := q' } : GuildQueue).undo_stack.getLast?
      = some (gq.queue, d) := snapshot_getLast gq d
  have hcur : ∀ g : GuildQueue, g.undo.2.current = g.current := by
    intro g
    unfold GuildQueue.undo
    rcases g.undo_stack.getLast? with _ | ⟨items, desc⟩ <;> rfl
  refine ⟨?_, hcur, ?_⟩
  · unfold GuildQueue.undo
    rw [hstack]
    exact ⟨rfl, rfl⟩
  · intro g; rfl

/-- C7: with `loop_mode = SINGLE` and a current track, `next_track`
returns the current track, and `n` successive calls return that same
track `n` times while `current` stays set and the queue is never
popped. -/
theorem nextTrack_single_repeats (gq : GuildQueue) (t : TrackInfo)
    (h1 : gq.loop_mode = LoopMode.SINGLE) (h2 : gq.current = some t) (n : Nat) :
    (GuildQueue.nextTrackIter n gq).1 = List.replicate n (some t) ∧
    (GuildQueue.nextTrackIter n gq).2.current = some t ∧
    (GuildQueue.nextTrackIter n gq).2.queue = gq.queue := by
  induction n generalizing gq with
  | zero => exact ⟨rfl, h2, rfl⟩
  | succ n ih =>
    have hstep : gq.nextTrack = (some t, { gq with skip_votes := [] }) := by
      unfold GuildQueue.nextTrack
      simp [h1, h2]
    have hiter : GuildQueue.nextTrackIter (n + 1) gq =
        ((gq.nextTrack).1 :: (GuildQueue.nextTrackIter n (gq.nextTrack).2).1,
         (GuildQueue.nextTrackIter n (gq.nextTrack).2).2) := rfl
    rcases ih { gq with skip_votes := [] } h1 h2 with ⟨ha, hb, hc⟩
    rw [hiter, hstep]
    exact ⟨by rw [ha]; rfl, hb, hc⟩

/-- Witness for C7 at a concrete SINGLE-loop state, three calls. -/
theorem nextTrack_single_repeats_witness :
    ({ initGuildQueue with
        loop_mode := LoopMode.SINGLE,
        current := some {} } : GuildQueue).loop_mode = LoopMode.SINGLE ∧
    (GuildQueue.nextTrackIter 3 { initGuildQueue with
        loop_mode := LoopMode.SINGLE,
        current := some {} }).1 = List.replicate 3 (some {}) :=
  ⟨rfl,
   (nextTrack_single_repeats
      { initGuildQueue with loop_mode := LoopMode.SINGLE, current := some {} }
      {} rfl rfl 3).1⟩

/-- C8 counterexample: in the SINGLE-loop reuse branch the source still
clears `skip_votes` (the clearing happens unconditionally at entry,
before the branch), so a state with a pending vote does not keep it. -/
theorem nextTrack_single_votes_cex :
    (({ initGuildQueue with
        loop_mode := LoopMode.SINGLE,
        current := some {},
        skip_votes := [1] } : GuildQueue).nextTrack).2.skip_votes = [] ∧
    ([] : List Nat) ≠ [1] := by
  exact ⟨rfl, by decide⟩

/-- C8 (amended): `next_track` clears `skip_votes` unconditionally at
entry — in every branch, not only the advancement branch; in particular,
with `loop_mode = SINGLE` and a current track it reuses the current
track and leaves the queue and `previous` unchanged, but `skip_votes`
comes out empty. -/
theorem nextTrack_clears_votes (gq : GuildQueue) (t : TrackInfo)
    (h1 : gq.loop_mode = LoopMode.SINGLE) (h2 : gq.current = some t) :
    gq.nextTrack = (some t, { gq with skip_votes := [] }) ∧
    (∀ g : GuildQueue, (g.nextTrack).2.skip_votes = []) := by
  constructor
  · unfold GuildQueue.nextTrack
    simp [h1, h2]
  · intro g
    unfold GuildQueue.nextTrack
    rcases hm : g.loop_mode <;> rcases hc : g.current <;>
      simp [hm, hc] <;> rcases g.queue <;> rfl

/-- Witness for C8's amended statement at a concrete SINGLE-loop state. -/
theorem nextTrack_clears_votes_witness :
    ({ initGuildQueue with
        loop_mode := LoopMode.SINGLE,
        current := some {},
        skip_votes := [7] } : GuildQueue).nextTrack =
      (some {}, { initGuildQueue with
        loop_mode := LoopMode.SINGLE,
        current := some {},
        skip_votes := [] }) :=
  (nextTrack_clears_votes
    { initGuildQueue with
      loop_mode := LoopMode.SINGLE,
      current := some {},
      skip_votes := [7] } {} rfl rfl).1

/-- C9: rehydrating a freshly created session from a saved snapshot
pushes the saved current track to the front of the queue, appends the
saved queue contents after it, and restores the loop mode from the
snapshot (keeping the prior mode when the saved name does not parse),
while `current` remains `None` — rehydration is a pure data update and
starts no playback. -/
theorem restore_rehydrates (s : SavedState) (gq : GuildQueue)
    (hq : gq.queue = []) (hc : gq.current = none) :
    (restoreQueueState (some s) gq).queue =
      (match s.current with
       | some d => [trackFromSaved d]
       | none => []) ++ s.queue.map trackFromSaved ∧
    (restoreQueueState (some s) gq).current = none ∧
    (restoreQueueState (some s) gq).loop_mode =
      (s.loop_mode.bind parseLoopMode).getD gq.loop_mode := by
  unfold restoreQueueState
  rcases s with ⟨cur, sq, lm⟩
  rcases cur with _ | d <;> rcases lm with _ | name <;>
    simp [hq, hc, Option.getD] <;>
    (rcases hp : parseLoopMode name with _ | m <;> simp [hp, hq, hc])

/-- Witness for C9 at a concrete snapshot over a fresh session. -/
theorem restore_rehydrates_witness :
    (initGuildQueue.queue = [] ∧ initGuildQueue.current = none) ∧
    (restoreQueueState
        (some { current := some { title := "cur" },
                queue := [{ title := "q1" }],
                loop_mode := some "QUEUE" }) initGuildQueue).queue =
      (match (some { title := "cur" } : Option SavedTrack) with
       | some d => [trackFromSaved d]
       | none => []) ++ [({ title := "q1" } : SavedTrack)].map trackFromSaved :=
  ⟨⟨rfl, rfl⟩,
   (restore_rehydrates
     { current := some { title := "cur" }, queue := [{ title := "q1" }],
       loop_mode := some "QUEUE" } initGuildQueue rfl rfl).1⟩

/-- C10: `CrossfadeSource.read` is total for a zero-second crossfade
window: `total_frames = 0`, and `progress` divides by
`max(total_frames, 1)`, so the first read with both producers non-empty
reaches `progress >= 1.0`, marks the mixer finished and emits the
incoming frame verbatim; every later read on a finished mixer just
passes the incoming producer through — an immediate cut to the incoming
stream. -/
theorem crossfade_zero_window_cut (s : CrossfadeSource) (o i : Frame)
    (os rest : List Frame)
    (h0 : s.total_frames = 0) (hf : s.finished = false)
    (ho : s.outgoing = o :: os) (hi : s.incoming = i :: rest)
    (hno : o ≠ []) (hni : i ≠ []) :
    s.read = (i, { s with outgoing := os, incoming := rest,
                          frame_count := s.frame_count + 1, finished := true }) ∧
    (∀ s' : CrossfadeSource, s'.finished = true →
      s'.read = ((popFrame s'.incoming).1,
                 { s' with incoming := (popFrame s'.incoming).2 })) := by
  constructor
  · have hprog : (1 : ℚ) ≤ min ((s.frame_count + 1 : ℕ) : ℚ) 1 := by
      have h1 : (1 : ℚ) ≤ ((s.frame_count + 1 : ℕ) : ℚ) := by
        exact_mod_cast Nat.succ_le_succ (Nat.zero_le _)
      simp [min_def, h1]
    unfold CrossfadeSource.read
    rw [hf]
    simp only [Bool.false_eq_true, if_false, ho, hi, popFrame]
    simp [hno, hni, h0, hprog]
  · intro s' h
    unfold CrossfadeSource.read
    rw [h]
    rfl

/-- Witness for C10 at a concrete one-frame pair of producers. -/
theorem crossfade_zero_window_cut_witness :
    (CrossfadeSource.init [[5]] [[7]] 0).read =
      ([7], { CrossfadeSource.init [[5]] [[7]] 0 with
              outgoing := [], incoming := [],
              frame_count := 1, finished := true }) :=
  (crossfade_zero_window_cut (CrossfadeSource.init [[5]] [[7]] 0)
    [5] [7] [] [] rfl rfl rfl rfl (by decide) (by decide)).1

theorem lookup_cancel_self (timers : TimerTable) (gid : Nat) :
    lookupTimer (cancelCrossfadeTimer timers gid) gid = none := by
  induction timers with
  | nil => rfl
  | cons p rest ih =>
    unfold cancelCrossfadeTimer lookupTimer at *
    rw [List.filter_cons]
    by_cases h : p.1 = gid
    · rw [if_neg (by simp [h])]
      exact ih
    · rw [if_pos (by simp [h]), List.find?_cons_of_neg _ (by simp [h])]
      exact ih

theorem lookup_cancel_other (timers : TimerTable) (gid g' : Nat) (h : g' ≠ gid) :
    lookupTimer (cancelCrossfadeTimer timers gid) g' = lookupTimer timers g' := by
  induction timers with
  | nil => rfl
  | cons p rest ih =>
    unfold cancelCrossfadeTimer lookupTimer at *
    rw [List.filter_cons]
    by_cases hp : p.1 = gid
    · have hpg : p.1 ≠ g' := by omega
      rw [if_neg (by simp [hp]), List.find?_cons_of_neg _ (by simp [hpg])]
      exact ih
    · rw [if_pos (by simp [hp])]
      by_cases hpg : p.1 = g'
      · rw [List.find?_cons_of_pos _ (by simp [hpg]),
            List.find?_cons_of_pos _ (by simp [hpg])]
      · rw [List.find?_cons_of_neg _ (by simp [hpg]),
            List.find?_cons_of_neg _ (by simp [hpg])]
        exact ih

/-- C4 counterexample: with `crossfade_seconds = 5`, a 3-second track at
speed 1, not live, and a non-empty queue, all the claim's conditions
hold, yet the source schedules delay `max(0, 3/1 - 5) = 0`, not the
claimed `duration/speed - crossfade_seconds = -2`. -/
theorem crossfade_timer_delay_cex :
    playNextScheduleTimer [] 1 5 3 false [{}] 1 = [(1, 0)] ∧
    ((3 : ℚ) / 1 - 5 ≠ (0 : ℚ)) := by
  constructor
  · unfold playNextScheduleTimer cancelCrossfadeTimer crossfadeDelay
    rw [if_pos (by norm_num)]
    have : max (0 : ℚ) (((3 : ℕ) : ℚ) / 1 - ((5 : ℕ) : ℚ)) = 0 := by
      rw [max_eq_left (by norm_num)]
    rw [this]
    rfl
  · norm_num

/-- C4 (amended): when playback of a track starts with
`crossfade_seconds > 0`, a known finite `duration > 0`, a non-live
track, and a non-empty queue, a crossfade timer is stored for the room
with delay `max(0, duration/speed - crossfade_seconds)` (175 s for a
180 s track at speed 1 with a 5 s window); when any condition fails no
timer is stored; the previously pending timer for the room is always
cancelled first, and other rooms' timers are untouched. -/
theorem crossfade_timer_schedule (timers : TimerTable) (gid cs dur : Nat)
    (live : Bool) (q : List TrackInfo) (speed : ℚ) :
    (0 < cs → 0 < dur → live = false → q ≠ [] →
      lookupTimer (playNextScheduleTimer timers gid cs dur live q speed) gid =
        some (max 0 ((dur : ℚ) / speed - (cs : ℚ)))) ∧
    (¬(0 < cs ∧ 0 < dur ∧ live = false ∧ q ≠ []) →
      lookupTimer (playNextScheduleTimer timers gid cs dur live q speed) gid = none) ∧
    (∀ g', g' ≠ gid →
      lookupTimer (playNextScheduleTimer timers gid cs dur live q speed) g' =
        lookupTimer timers g') := by
  refine ⟨?_, ?_, ?_⟩
  · intro h1 h2 h3 h4
    unfold playNextScheduleTimer
    rw [if_pos ⟨h1, h2, h3, h4⟩]
    unfold lookupTimer
    rw [List.find?_cons_of_pos _ (by simp)]
    rfl
  · intro h
    unfold playNextScheduleTimer
    rw [if_neg h]
    exact lookup_cancel_self timers gid
  · intro g' hg
    unfold playNextScheduleTimer
    by_cases h : 0 < cs ∧ 0 < dur ∧ live = false ∧ q ≠ []
    · rw [if_pos h]
      rw [show lookupTimer ((gid, crossfadeDelay cs dur speed) ::
            cancelCrossfadeTimer timers gid) g' =
          lookupTimer (cancelCrossfadeTimer timers gid) g' by
        unfold lookupTimer
        rw [List.find?_cons_of_neg _ (by simp; omega)]]
      exact lookup_cancel_other timers gid g' hg
    · rw [if_neg h]
      exact lookup_cancel_other timers gid g' hg

/-- Witness for C4's amended statement: a 180 s track at speed 1 with a
5 s window and one queued track schedules a 175 s timer, replacing the
room's stale pending timer. -/
theorem crossfade_timer_schedule_witness :
    lookupTimer (playNextScheduleTimer [(1, 3)] 1 5 180 false [{}] 1) 1 =
      some (max 0 ((180 : ℚ) / 1 - (5 : ℚ))) :=
  (crossfade_timer_schedule [(1, 3)] 1 5 180 false [{}] 1).1
    (by decide) (by decide) rfl (by decide)

theorem rat_floor_eq (q : ℚ) (z : ℤ) (h1 : (z : ℚ) ≤ q) (h2 : q < ((z + 1 : ℤ) : ℚ)) :
    Rat.floor q = z := by
  have ha : z ≤ Rat.floor q := Rat.le_floor.mpr h1
  have hb : ¬(z + 1 ≤ Rat.floor q) := by
    intro h
    exact absurd (Rat.le_floor.mp h) (not_le.mpr h2)
  omega

theorem readN_add (m n : Nat) (s : CrossfadeSource) :
    readN (m + n) s =
      ((readN m s).1 ++ (readN n (readN m s).2).1, (readN n (readN m s).2).2) := by
  induction m generalizing s with
  | zero => simp [readN]
  | succ m ih =>
    rw [show m + 1 + n = (m + n) + 1 from by omega]
    simp only [readN, ih s.read.2, List.cons_append]

theorem mixSample_zero (g1 g2 : ℚ) : mixSample g1 g2 0 0 = 0 := by
  unfold mixSample pyInt
  rw [show ((0 : ℤ) : ℚ) * g1 + ((0 : ℤ) : ℚ) * g2 = 0 from by push_cast; ring]
  rw [if_neg (by norm_num)]
  rw [rat_floor_eq 0 0 (by norm_num) (by norm_num)]
  decide

theorem mixFrame_zero (n fc L : Nat) :
    mixFrame n fc (List.replicate L (0 : Int)) (List.replicate L (0 : Int)) =
      List.replicate L (0 : Int) := by
  unfold mixFrame padFrame
  simp only [List.length_replicate, Nat.max_self, Nat.sub_self, List.replicate_zero,
    List.append_nil, List.zipWith_replicate, Nat.min_self]
  rw [mixSample_zero]

theorem read_mix_step (F G : Frame) (hF : F ≠ []) (hG : G ≠ [])
    (N c : Nat) (hc : c + 1 < N) (og inc : List Frame) :
    (CrossfadeSource.mk (F :: og) (G :: inc) N c false).read =
      (mixFrame N (c + 1) F G, CrossfadeSource.mk og inc N (c + 1) false) := by
  have hN : 0 < N := by omega
  have hmax : max N 1 = N := Nat.max_eq_left hN
  have hlt : ((c + 1 : ℕ) : ℚ) / ((N : ℕ) : ℚ) < 1 := by
    rw [div_lt_one (by exact_mod_cast hN)]
    exact_mod_cast hc
  have hcond : ¬ (1 : ℚ) ≤ min (((c + 1 : ℕ) : ℚ) / ((N : ℕ) : ℚ)) 1 :=
    not_le.mpr (min_lt_iff.mpr (Or.inl hlt))
  unfold CrossfadeSource.read
  rw [if_neg (by simp)]
  show (if F = [] ∧ G = [] then _ else _) = _
  rw [if_neg (by simp [hF])]
  show (if F = [] then _ else _) = _
  rw [if_neg hF]
  show (if G = [] then _ else _) = _
  rw [if_neg hG]
  show (if (1 : ℚ) ≤ min (((c + 1 : ℕ) : ℚ) / ((max N 1 : ℕ) : ℚ)) 1 then _ else _) = _
  rw [hmax, if_neg hcond]
  rfl

theorem read_boundary_step (F G : Frame) (hF : F ≠ []) (hG : G ≠ [])
    (N : Nat) (hN : 0 < N) (og inc : List Frame) :
    (CrossfadeSource.mk (F :: og) (G :: inc) N (N - 1) false).read =
      (G, CrossfadeSource.mk og inc N (N - 1 + 1) true) := by
  have hmax : max N 1 = N := Nat.max_eq_left hN
  have heq : ((N - 1 + 1 : ℕ) : ℚ) / ((N : ℕ) : ℚ) = 1 := by
    rw [show N - 1 + 1 = N from by omega, div_self (by exact_mod_cast hN.ne')]
  have hcond : (1 : ℚ) ≤ min (((N - 1 + 1 : ℕ) : ℚ) / ((N : ℕ) : ℚ)) 1 := by
    rw [heq]
    simp
  unfold CrossfadeSource.read
  rw [if_neg (by simp)]
  show (if F = [] ∧ G = [] then _ else _) = _
  rw [if_neg (by simp [hF])]
  show (if F = [] then _ else _) = _
  rw [if_neg hF]
  show (if G = [] then _ else _) = _
  rw [if_neg hG]
  show (if (1 : ℚ) ≤ min (((N - 1 + 1 : ℕ) : ℚ) / ((max N 1 : ℕ) : ℚ)) 1 then _ else _) = _
  rw [hmax, if_pos hcond]
  rfl

theorem read_finished_step (s : CrossfadeSource) (h : s.finished = true) :
    s.read = ((popFrame s.incoming).1, { s with incoming := (popFrame s.incoming).2 }) := by
  unfold CrossfadeSource.read
  rw [h]
  rfl

theorem readN_finished (G : Frame) :
    ∀ (k m : Nat), k ≤ m → ∀ (og : List Frame) (N fc : Nat),
    readN k (CrossfadeSource.mk og (List.replicate m G) N fc true) =
      (List.replicate k G, CrossfadeSource.mk og (List.replicate (m - k) G) N fc true) := by
  intro k
  induction k with
  | zero => intro m _ og N fc; simp [readN]
  | succ k ih =>
    intro m hk og N fc
    obtain ⟨m', rfl⟩ : ∃ m', m = m' + 1 := ⟨m - 1, by omega⟩
    simp only [readN]
    rw [read_finished_step _ rfl]
    simp only [List.replicate_succ, popFrame]
    rw [ih m' (by omega) og N fc]
    rw [show m' + 1 - (k + 1) = m' - k from by omega]

/-- The list of frames the mixing phase emits: reads at frame counts
`c+1, c+2, ...`, `k` of them. -/
def mixRun (F G : Frame) (N : Nat) : Nat → Nat → List Frame
  | _, 0 => []
  | c, k + 1 => mixFrame N (c + 1) F G :: mixRun F G N (c + 1) k

theorem readN_mix_phase (F G : Frame) (hF : F ≠ []) (hG : G ≠ []) (N : Nat) :
    ∀ (k c a b : Nat), c + k < N → k ≤ a → k ≤ b →
    readN k (CrossfadeSource.mk (List.replicate a F) (List.replicate b G) N c false) =
      (mixRun F G N c k,
       CrossfadeSource.mk (List.replicate (a - k) F) (List.replicate (b - k) G)
         N (c + k) false) := by
  intro k
  induction k with
  | zero => intro c a b h ha hb; simp [readN, mixRun]
  | succ k ih =>
    intro c a b h ha hb
    obtain ⟨a', rfl⟩ : ∃ a', a = a' + 1 := ⟨a - 1, by omega⟩
    obtain ⟨b', rfl⟩ : ∃ b', b = b' + 1 := ⟨b - 1, by omega⟩
    simp only [readN, List.replicate_succ, mixRun]
    rw [read_mix_step F G hF hG N c (by omega) _ _]
    simp only []
    rw [ih (c + 1) a' b' (by omega) (by omega) (by omega)]
    rw [show a' + 1 - (k + 1) = a' - k from by omega,
        show b' + 1 - (k + 1) = b' - k from by omega,
        show c + (k + 1) = c + 1 + k from by omega]

theorem mixRun_zero (L N : Nat) :
    ∀ (k c : Nat), mixRun (List.replicate L (0 : Int)) (List.replicate L (0 : Int)) N c k =
      List.replicate k (List.replicate L (0 : Int)) := by
  intro k
  induction k with
  | zero => intro c; rfl
  | succ k ih =>
    intro c
    simp only [mixRun, List.replicate_succ, mixFrame_zero, ih (c + 1)]

theorem mixRun_get (F G : Frame) (N : Nat) :
    ∀ (k c i : Nat), i < k →
      (mixRun F G N c k).get? i = some (mixFrame N (c + 1 + i) F G) := by
  intro k
  induction k with
  | zero => intro c i h; omega
  | succ k ih =>
    intro c i h
    cases i with
    | zero => simp [mixRun]
    | succ i =>
      simp only [mixRun, List.get?_cons_succ]
      rw [ih (c + 1) i (by omega)]
      rw [show c + 1 + 1 + i = c + 1 + (i + 1) from by omega]

theorem mixRun_length (F G : Frame) (N : Nat) :
    ∀ k c, (mixRun F G N c k).length = k := by
  intro k
  induction k with
  | zero => intro c; rfl
  | succ k ih => intro c; simp only [mixRun, List.length_cons, ih (c + 1)]

theorem mixSample_half : mixSample (1 - 1/2) (1/2) 32767 0 = 16383 := by
  unfold mixSample pyInt
  rw [show ((32767 : ℤ) : ℚ) * (1 - 1/2) + ((0 : ℤ) : ℚ) * (1/2) = 32767/2 from by
    push_cast; ring]
  rw [if_neg (by norm_num)]
  rw [rat_floor_eq (32767/2) 16383 (by norm_num) (by norm_num)]
  decide

theorem mixFrame_half (cs L : Nat) (hcs : 1 ≤ cs) :
    mixFrame (cs * 50) (cs * 25)
      (List.replicate L (32767 : Int)) (List.replicate L (0 : Int)) =
      List.replicate L (16383 : Int) := by
  unfold mixFrame padFrame
  have hmax : max (cs * 50) 1 = cs * 50 := Nat.max_eq_left (by omega)
  rw [hmax]
  have hprog : ((cs * 25 : ℕ) : ℚ) / ((cs * 50 : ℕ) : ℚ) = 1/2 := by
    have hcs' : (cs : ℚ) ≠ 0 := by
      have : 0 < cs := hcs
      exact_mod_cast this.ne'
    push_cast
    rw [div_eq_iff (by positivity)]
    ring
  rw [hprog]
  rw [show min ((1 : ℚ)/2) 1 = 1/2 from by norm_num]
  simp only [List.length_replicate, Nat.max_self, Nat.sub_self, List.replicate_zero,
    List.append_nil, List.zipWith_replicate, Nat.min_self]
  rw [mixSample_half]

theorem readN_full_run (F G : Frame) (hF : F ≠ []) (hG : G ≠ []) (cs : Nat)
    (hcs : 1 ≤ cs) :
    (readN (2 * (cs * 50))
      (CrossfadeSource.init (List.replicate (2 * (cs * 50)) F)
        (List.replicate (2 * (cs * 50)) G) cs)).1 =
      mixRun F G (cs * 50) 0 (cs * 50 - 1) ++ (G :: List.replicate (cs * 50) G) := by
  have hN : 0 < cs * 50 := by omega
  have hinit : CrossfadeSource.init (List.replicate (2 * (cs * 50)) F)
      (List.replicate (2 * (cs * 50)) G) cs =
      CrossfadeSource.mk (List.replicate (2 * (cs * 50)) F)
        (List.replicate (2 * (cs * 50)) G) (cs * 50) 0 false := rfl
  rw [hinit]
  rw [show 2 * (cs * 50) = (cs * 50 - 1) + (1 + cs * 50) from by omega]
  rw [readN_add]
  rw [readN_mix_phase F G hF hG (cs * 50) (cs * 50 - 1) 0
      ((cs * 50 - 1) + (1 + cs * 50)) ((cs * 50 - 1) + (1 + cs * 50))
      (by omega) (by omega) (by omega)]
  dsimp only
  rw [show (cs * 50 - 1) + (1 + cs * 50) - (cs * 50 - 1) = cs * 50 + 1 from by omega]
  rw [show 0 + (cs * 50 - 1) = cs * 50 - 1 from by omega]
  rw [readN_add 1 (cs * 50)]
  simp only [readN]
  rw [List.replicate_succ F (cs * 50), List.replicate_succ G (cs * 50)]
  rw [read_boundary_step F G hF hG (cs * 50) hN]
  dsimp only
  rw [readN_finished G (cs * 50) (cs * 50) (le_refl _)]
  dsimp only
  rfl

/-- C2: with window `N = crossfade_seconds * 50` frames, feeding two
producers of all-zero frames of length `2N` through the mixer yields
all-zero output of the same total length `2N`; feeding a max-amplitude
outgoing producer against a zero incoming producer, the frame emitted at
read `N/2` carries sample value `16383` — half of the 16-bit maximum
`32767` up to integer rounding (`out_gain = 1 - progress`,
`in_gain = progress`, `progress = 1/2` there). -/
theorem crossfade_silence_and_half (cs L : Nat) (hcs : 1 ≤ cs) (hL : 1 ≤ L) :
    (readN (2 * (cs * 50))
        (CrossfadeSource.init
          (List.replicate (2 * (cs * 50)) (List.replicate L (0 : Int)))
          (List.replicate (2 * (cs * 50)) (List.replicate L (0 : Int))) cs)).1 =
      List.replicate (2 * (cs * 50)) (List.replicate L (0 : Int)) ∧
    (readN (2 * (cs * 50))
        (CrossfadeSource.init
          (List.replicate (2 * (cs * 50)) (List.replicate L (32767 : Int)))
          (List.replicate (2 * (cs * 50)) (List.replicate L (0 : Int))) cs)).1.get?
        (cs * 25 - 1) =
      some (List.replicate L (16383 : Int)) ∧
    (32767 - 2 * 16383 : Int).natAbs ≤ 1 := by
  have hzf : List.replicate L (0 : Int) ≠ [] := by
    rw [Ne, List.replicate_eq_nil]
    omega
  have hmf : List.replicate L (32767 : Int) ≠ [] := by
    rw [Ne, List.replicate_eq_nil]
    omega
  refine ⟨?_, ?_, by decide⟩
  · rw [readN_full_run _ _ hzf hzf cs hcs, mixRun_zero]
    rw [show (List.replicate L (0 : Int)) ::
          List.replicate (cs * 50) (List.replicate L (0 : Int)) =
        List.replicate (cs * 50 + 1) (List.replicate L (0 : Int)) from
      (List.replicate_succ _ _).symm]
    rw [← List.replicate_add]
    rw [show cs * 50 - 1 + (cs * 50 + 1) = 2 * (cs * 50) from by omega]
  · rw [readN_full_run _ _ hmf hzf cs hcs]
    rw [List.get?_append (by rw [mixRun_length]; omega)]
    rw [mixRun_get _ _ _ _ _ _ (show cs * 25 - 1 < cs * 50 - 1 from by omega)]
    rw [show 0 + 1 + (cs * 25 - 1) = cs * 25 from by omega]
    rw [mixFrame_half cs L hcs]

/-- Witness for C2 at a one-second window and one-sample frames. -/
theorem crossfade_silence_and_half_witness :
    (1 ≤ 1) ∧
    ((readN (2 * (1 * 50))
        (CrossfadeSource.init
          (List.replicate (2 * (1 * 50)) (List.replicate 1 (0 : Int)))
          (List.replicate (2 * (1 * 50)) (List.replicate 1 (0 : Int))) 1)).1 =
      List.replicate (2 * (1 * 50)) (List.replicate 1 (0 : Int)) ∧
     (readN (2 * (1 * 50))
        (CrossfadeSource.init
          (List.replicate (2 * (1 * 50)) (List.replicate 1 (32767 : Int)))
          (List.replicate (2 * (1 * 50)) (List.replicate 1 (0 : Int))) 1)).1.get?
        (1 * 25 - 1) =
      some (List.replicate 1 (16383 : Int)) ∧
     (32767 - 2 * 16383 : Int).natAbs ≤ 1) :=
  ⟨by decide, crossfade_silence_and_half 1 1 (by decide) (by decide)⟩

/-- Size of the group stored under key `k` (0 when absent). -/
def groupSize {α : Type} (rem : List (String × List α)) (k : String) : Nat :=
  ((rem.find? (fun p => p.1 == k)).map (fun p => p.2.length)).getD 0

/-- The claim's per-step property along the interleave loop: whenever the
picked key repeats the previously placed key, at most one group was left,
and every group differing from the last key is no larger than the picked
group. -/
def SelectionOk {α : Type} : Nat → List (String × List α) → String → Prop
  | 0, _, _ => True
  | fuel + 1, rem, last =>
    match pickStep rem last with
    | none => True
    | some ((k, _), rem') =>
      (k = last → rem.length ≤ 1) ∧
      (∀ p ∈ rem, p.1 ≠ last → p.2.length ≤ groupSize rem k) ∧
      SelectionOk fuel rem' k

/-- No bad adjacency in a key trace: a key equal to its predecessor is
only allowed when the whole remaining trace stays on that key (the
forced tail where a single group is left). -/
def adjOk : String → List String → Prop
  | _, [] => True
  | last, k :: rest => (k = last → ∀ j ∈ rest, j = k) ∧ adjOk k rest

theorem argmaxFirst_mem {α : Type} (l : List (String × List α)) (b : String × List α)
    (h : argmaxFirst l = some b) : b ∈ l := by
  have key : ∀ (xs : List (String × List α)) (x : String × List α),
      xs.foldl (fun best y => if best.2.length < y.2.length then y else best) x ∈ x :: xs := by
    intro xs
    induction xs with
    | nil => intro x; exact List.mem_cons_self x []
    | cons y ys ih =>
      intro x
      have := ih (if x.2.length < y.2.length then y else x)
      rcases List.mem_cons.mp this with h' | h'
      · by_cases hxy : x.2.length < y.2.length
        · rw [List.foldl_cons]
          rw [h']
          simp [hxy]
        · rw [List.foldl_cons]
          rw [h']
          simp [hxy]
      · exact List.mem_cons.mpr (Or.inr (List.mem_cons.mpr (Or.inr h')))
  cases l with
  | nil => cases h
  | cons x xs =>
    have hb : b = xs.foldl (fun best y => if best.2.length < y.2.length then y else best) x := by
      cases h
      rfl
    rw [hb]
    exact key xs x

theorem argmaxFirst_le {α : Type} (l : List (String × List α)) (b : String × List α)
    (h : argmaxFirst l = some b) : ∀ p ∈ l, p.2.length ≤ b.2.length := by
  have key : ∀ (xs : List (String × List α)) (x : String × List α),
      x.2.length ≤ (xs.foldl (fun best y => if best.2.length < y.2.length then y else best) x).2.length ∧
      ∀ p ∈ xs, p.2.length ≤ (xs.foldl (fun best y => if best.2.length < y.2.length then y else best) x).2.length := by
    intro xs
    induction xs with
    | nil => intro x; exact ⟨le_refl _, by intro p hp; cases hp⟩
    | cons y ys ih =>
      intro x
      have hstep : x.2.length ≤ (if x.2.length < y.2.length then y else x).2.length ∧
          y.2.length ≤ (if x.2.length < y.2.length then y else x).2.length := by
        by_cases hxy : x.2.length < y.2.length
        · simp [hxy]
          omega
        · simp [hxy]
          omega
      have := ih (if x.2.length < y.2.length then y else x)
      refine ⟨le_trans hstep.1 this.1, ?_⟩
      intro p hp
      rcases List.mem_cons.mp hp with rfl | hp'
      · exact le_trans hstep.2 this.1
      · exact this.2 p hp'
  cases l with
  | nil => cases h
  | cons x xs =>
    have hb : b = xs.foldl (fun best y => if best.2.length < y.2.length then y else best) x := by
      cases h
      rfl
    rw [hb]
    intro p hp
    rcases List.mem_cons.mp hp with rfl | hp'
    · exact (key xs p).1
    · exact (key xs x).2 p hp'

theorem popGroup_keys_sublist {α : Type} (rem : List (String × List α)) (k : String) :
    ((popGroup rem k).map Prod.fst).Sublist (rem.map Prod.fst) := by
  induction rem with
  | nil => simp [popGroup]
  | cons p rest ih =>
    unfold popGroup
    by_cases hp : p.1 = k
    · rw [if_pos hp]
      by_cases ht : p.2.tail.isEmpty
      · rw [if_pos ht]
        simp only [List.map_cons]
        exact List.sublist_cons_self p.1 (rest.map Prod.fst)
      · rw [if_neg ht]
        simp only [List.map_cons]
        exact List.Sublist.refl _
    · rw [if_neg hp]
      simp only [List.map_cons]
      exact List.Sublist.cons₂ p.1 ih

theorem popGroup_values_nonempty {α : Type} (rem : List (String × List α)) (k : String)
    (h : ∀ p ∈ rem, p.2 ≠ []) : ∀ p ∈ popGroup rem k, p.2 ≠ [] := by
  induction rem with
  | nil => intro p hp; cases hp
  | cons q rest ih =>
    intro p hp
    unfold popGroup at hp
    by_cases hq : q.1 = k
    · rw [if_pos hq] at hp
      by_cases ht : q.2.tail.isEmpty
      · rw [if_pos ht] at hp
        exact h p (List.mem_cons.mpr (Or.inr hp))
      · rw [if_neg ht] at hp
        rcases List.mem_cons.mp hp with rfl | hp'
        · intro hnil
          apply ht
          have hn : q.2.tail = [] := hnil
          rw [hn]
          rfl
        · exact h p (List.mem_cons.mpr (Or.inr hp'))
    · rw [if_neg hq] at hp
      rcases List.mem_cons.mp hp with rfl | hp'
      · exact h p (List.mem_cons_self p rest)
      · exact ih (fun r hr => h r (List.mem_cons.mpr (Or.inr hr))) p hp'

theorem find?_eq_of_nodup {α : Type} (rem : List (String × List α))
    (b : String × List α) (hnd : (rem.map Prod.fst).Nodup) (hb : b ∈ rem) :
    rem.find? (fun p => p.1 == b.1) = some b := by
  induction rem with
  | nil => cases hb
  | cons x rest ih =>
    simp only [List.map_cons, List.nodup_cons] at hnd
    rcases List.mem_cons.mp hb with rfl | hb'
    · exact List.find?_cons_of_pos _ (by simp)
    · have hx : x.1 ≠ b.1 := by
        intro hcontra
        exact hnd.1 (hcontra ▸ List.mem_map.mpr ⟨b, hb', rfl⟩)
      rw [List.find?_cons_of_neg _ (by simp [hx])]
      exact ih hnd.2 hb'

theorem same_keys_length_le_one {α : Type} (rem : List (String × List α))
    (last : String) (hnd : (rem.map Prod.fst).Nodup)
    (h : ∀ p ∈ rem, p.1 = last) : rem.length ≤ 1 := by
  cases rem with
  | nil => simp
  | cons p rest =>
    cases rest with
    | nil => simp
    | cons q rest' =>
      exfalso
      simp only [List.map_cons, List.nodup_cons] at hnd
      apply hnd.1
      rw [h p (List.mem_cons_self p _), ← h q (List.mem_cons.mpr (Or.inr (List.mem_cons_self q _)))]
      exact List.mem_map.mpr ⟨q, List.mem_cons_self q _, rfl⟩

theorem pickStep_inv {α : Type} {rem : List (String × List α)} {last k : String}
    {t : α} {rem' : List (String × List α)}
    (h : pickStep rem last = some ((k, t), rem')) :
    rem' = popGroup rem k ∧
    ∃ v, (k, v) ∈ rem ∧
      ((rem.filter (fun p => p.1 != last && !p.2.isEmpty)).isEmpty = false →
        (k, v) ∈ rem.filter (fun p => p.1 != last && !p.2.isEmpty) ∧
        ∀ p ∈ rem.filter (fun p => p.1 != last && !p.2.isEmpty),
          p.2.length ≤ v.length) := by
  unfold pickStep at h
  by_cases hce : (rem.filter (fun p => p.1 != last && !p.2.isEmpty)).isEmpty
  · rw [if_pos hce] at h
    rcases ham : argmaxFirst (rem.filter (fun p => !p.2.isEmpty)) with _ | b
    · rw [ham] at h
      simp at h
    · obtain ⟨bk, bv⟩ := b
      rw [ham] at h
      cases bv with
      | nil => simp at h
      | cons t' v' =>
        simp only [Option.some.injEq, Prod.mk.injEq] at h
        obtain ⟨⟨hk, ht⟩, hrem⟩ := h
        have hbmem : (bk, t' :: v') ∈ rem :=
          (List.mem_filter.mp (argmaxFirst_mem _ _ ham)).1
        refine ⟨by rw [← hrem, hk], ⟨t' :: v', ?_, ?_⟩⟩
        · rw [← hk]
          exact hbmem
        · intro hfalse
          rw [hce] at hfalse
          cases hfalse
  · rw [if_neg hce] at h
    rcases ham : argmaxFirst (rem.filter (fun p => p.1 != last && !p.2.isEmpty)) with _ | b
    · rw [ham] at h
      simp at h
    · obtain ⟨bk, bv⟩ := b
      rw [ham] at h
      cases bv with
      | nil => simp at h
      | cons t' v' =>
        simp only [Option.some.injEq, Prod.mk.injEq] at h
        obtain ⟨⟨hk, ht⟩, hrem⟩ := h
        have hbcand : (bk, t' :: v') ∈ rem.filter (fun p => p.1 != last && !p.2.isEmpty) :=
          argmaxFirst_mem _ _ ham
        refine ⟨by rw [← hrem, hk], ⟨t' :: v', ?_, ?_⟩⟩
        · rw [← hk]
          exact (List.mem_filter.mp hbcand).1
        · intro _
          refine ⟨by rw [← hk]; exact hbcand, ?_⟩
          intro p hp
          exact argmaxFirst_le _ _ ham p hp

theorem interleave_keys_const {α : Type} (k : String) :
    ∀ (fuel : Nat) (rem : List (String × List α)) (last : String),
      (∀ p ∈ rem, p.1 = k) →
      ∀ j ∈ (interleaveAux fuel rem last).map Prod.fst, j = k := by
  intro fuel
  induction fuel with
  | zero => intro rem last h j hj; simp [interleaveAux] at hj
  | succ fuel ih =>
    intro rem last h j hj
    rcases hp : pickStep rem last with _ | ⟨⟨k', t⟩, rem'⟩
    · simp only [interleaveAux, hp, List.map_nil] at hj
      exact absurd hj (List.not_mem_nil j)
    · simp only [interleaveAux, hp, List.map_cons, List.mem_cons] at hj
      obtain ⟨hrem', v, hvmem, _⟩ := pickStep_inv hp
      have hk' : k' = k := h (k', v) hvmem
      have hall' : ∀ p ∈ rem', p.1 = k := by
        intro p hp'
        rw [hrem'] at hp'
        have hmem : p.1 ∈ (popGroup rem k').map Prod.fst :=
          List.mem_map.mpr ⟨p, hp', rfl⟩
        have hmem2 : p.1 ∈ rem.map Prod.fst :=
          (popGroup_keys_sublist rem k').subset hmem
        obtain ⟨q, hq, hq1⟩ := List.mem_map.mp hmem2
        rw [← hq1]
        exact h q hq
      rcases hj with rfl | hj'
      · exact hk'
      · exact ih rem' k' hall' j hj'

/-- C5: for every grouping of the queue into per-artist groups (distinct
keys, each group non-empty — exactly what `smart_shuffle`'s grouping
pass produces, for any outcome of the in-group shuffles), along the
interleave loop every selection is drawn from a largest remaining group
whose key differs from the previously placed one, the same key being
reused only when at most one group still has remaining tracks
(`SelectionOk`); consequently — for the `[5,1,1]` grouping as for any
other — the output never places two same-group tracks adjacently except
in the forced tail where a single group remains (`adjOk`). -/
theorem smart_shuffle_selection {α : Type} (fuel : Nat) :
    ∀ (rem : List (String × List α)) (last : String),
      (∀ p ∈ rem, p.2 ≠ []) → (rem.map Prod.fst).Nodup →
      SelectionOk fuel rem last ∧
      adjOk last ((interleaveAux fuel rem last).map Prod.fst) := by
  induction fuel with
  | zero =>
    intro rem last h1 h2
    exact ⟨trivial, trivial⟩
  | succ fuel ih =>
    intro rem last h1 h2
    rcases hp : pickStep rem last with _ | ⟨⟨k, t⟩, rem'⟩
    · constructor
      · unfold SelectionOk
        rw [hp]
        trivial
      · simp only [interleaveAux, hp, List.map_nil]
        trivial
    · obtain ⟨hrem', v, hvmem, hcands⟩ := pickStep_inv hp
      have h1' : ∀ p ∈ rem', p.2 ≠ [] := by
        rw [hrem']
        exact popGroup_values_nonempty rem k h1
      have h2' : (rem'.map Prod.fst).Nodup := by
        rw [hrem']
        exact List.Nodup.sublist (popGroup_keys_sublist rem k) h2
      have hmain := ih rem' k h1' h2'
      by_cases hce : (rem.filter (fun p => p.1 != last && !p.2.isEmpty)).isEmpty
      · have hall : ∀ p ∈ rem, p.1 = last := by
          intro p hp'
          have hnp : ¬((p.1 != last && !p.2.isEmpty) = true) := by
            intro hpred
            have hmem : p ∈ rem.filter (fun p => p.1 != last && !p.2.isEmpty) :=
              List.mem_filter.mpr ⟨hp', hpred⟩
            rw [List.isEmpty_iff.mp hce] at hmem
            cases hmem
          by_contra hne
          apply hnp
          have hv : p.2.isEmpty = false := by
            rw [List.isEmpty_eq_false]
            exact h1 p hp'
          simp [hne, hv]
        have hlen : rem.length ≤ 1 := same_keys_length_le_one rem last h2 hall
        constructor
        · unfold SelectionOk
          rw [hp]
          refine ⟨fun _ => hlen, ?_, hmain.1⟩
          intro p hp' hne
          exact absurd (hall p hp') hne
        · simp only [interleaveAux, hp, List.map_cons]
          refine ⟨?_, hmain.2⟩
          intro _ j hj
          have hklast : k = last := hall (k, v) hvmem
          have hallk : ∀ p ∈ rem', p.1 = k := by
            intro p hpmem
            rw [hrem'] at hpmem
            have hmem : p.1 ∈ (popGroup rem k).map Prod.fst :=
              List.mem_map.mpr ⟨p, hpmem, rfl⟩
            have hmem2 : p.1 ∈ rem.map Prod.fst :=
              (popGroup_keys_sublist rem k).subset hmem
            obtain ⟨q, hq, hq1⟩ := List.mem_map.mp hmem2
            rw [← hq1, hall q hq, hklast]
          exact interleave_keys_const k fuel rem' k hallk j hj
      · have hcf := hcands (by rwa [Bool.not_eq_true] at hce)
        obtain ⟨hkv_cand, hmax⟩ := hcf
        have hkne : k ≠ last := by
          have hpred := (List.mem_filter.mp hkv_cand).2
          simp only [Bool.and_eq_true, bne_iff_ne] at hpred
          exact hpred.1
        have hgs : groupSize rem k = v.length := by
          unfold groupSize
          rw [find?_eq_of_nodup rem (k, v) h2 hvmem]
          rfl
        constructor
        · unfold SelectionOk
          rw [hp]
          refine ⟨fun heq => absurd heq hkne, ?_, hmain.1⟩
          intro p hp' hpne
          rw [hgs]
          apply hmax
          apply List.mem_filter.mpr
          refine ⟨hp', ?_⟩
          have hv : p.2.isEmpty = false := by
            rw [List.isEmpty_eq_false]
            exact h1 p hp'
          simp [hpne, hv]
        · simp only [interleaveAux, hp, List.map_cons]
          exact ⟨fun heq => absurd heq hkne, hmain.2⟩

/-- Witness for C5 at the claim's `[5,1,1]` grouping. -/
theorem smart_shuffle_selection_witness :
    ((∀ p ∈ [("a", [1, 2, 3, 4, 5]), ("b", [(6 : Nat)]), ("c", [7])], p.2 ≠ []) ∧
     (([("a", [1, 2, 3, 4, 5]), ("b", [(6 : Nat)]), ("c", [7])].map Prod.fst).Nodup)) ∧
    (SelectionOk 7 [("a", [1, 2, 3, 4, 5]), ("b", [(6 : Nat)]), ("c", [7])] "" ∧
     adjOk ""
       ((interleaveAux 7 [("a", [1, 2, 3, 4, 5]), ("b", [(6 : Nat)]), ("c", [7])] "").map
         Prod.fst)) :=
  ⟨⟨by decide, by decide⟩,
   smart_shuffle_selection 7 [("a", [1, 2, 3, 4, 5]), ("b", [(6 : Nat)]), ("c", [7])] ""
     (by decide) (by decide)⟩

end Essusic
